import Mathlib

/-!
Verification of the Connect-4 game engine (`src/connect4.py`).

The embedding below follows the Python source closely:

* A player's move bookkeeping (`Player._moves`) is a Python dict keyed by
  `(col, row)` coordinate pairs, with insertion order preserved; we embed it
  as an association list `Moves`.
* `Player.place_coin` and `Player.has_win` are translated function by
  function; the `while` loops of `has_win` become fuel-indexed recursions
  (`walkF`), where running out of fuel and a `KeyError` both surface as
  `none`.  `has_win` is run with fuel `m.length + 1`, which is proved
  sufficient for every reachable moves mapping.
* `Board.place_coin` (pixel-column decoding plus the bottom-up row scan)
  becomes `boardPlaceCoin`, and one iteration of `Connect4._event_loop`
  handling a mouse click becomes `stepGame`; an uncaught exception is `none`.
* The `__main__` value validation (`InvalidValueError`) becomes
  `checkValues`.
-/

namespace Connect4

/-- `COIN_RADIUS` constant of the source (line 20). -/
def COIN_RADIUS : Int := 50

/-- `ROWS` constant of the source (line 21). -/
def ROWS : Nat := 6

/-- `COLUMNS` constant of the source (line 21). -/
def COLUMNS : Nat := 7

/-- A board coordinate as used by `Player._moves`: a `(col, row)` pair. -/
abbrev Coord := Int × Int

/-- `Player._moves`: a dict from coordinate to the list of adjacent
same-player coordinates, embedded as an association list in insertion
order. -/
abbrev Moves := List (Coord × List Coord)

/-- Dict lookup `self._moves[p]`; `none` models a `KeyError`. -/
def lookupMoves (m : Moves) (p : Coord) : Option (List Coord) :=
  match m with
  | [] => none
  | e :: rest => if e.1 = p then some e.2 else lookupMoves rest p

/-- The keys of the mapping, in insertion order. -/
def keysList (m : Moves) : List Coord := m.map Prod.fst

/-- `p in self._moves`. -/
def isKey (m : Moves) (p : Coord) : Bool := (lookupMoves m p).isSome

/-- The neighbourhood test of `Player.place_coin` (line 138):
`x in (cx - 1, cx, cx + 1) and y in (cy - 1, cy, cy + 1)`, where `c` is the
newly placed coin and `p` the examined key. -/
def near (c p : Coord) : Bool :=
  (p.1 == c.1 - 1 || p.1 == c.1 || p.1 == c.1 + 1) &&
  (p.2 == c.2 - 1 || p.2 == c.2 || p.2 == c.2 + 1)

/-- Dict update `self._moves[k] = v`: replace the value in place when the key
is present, append a new entry otherwise. -/
def setEntry (m : Moves) (k : Coord) (v : List Coord) : Moves :=
  if (lookupMoves m k).isSome then
    m.map (fun e => if e.1 = k then (k, v) else e)
  else m ++ [(k, v)]

/-- `Player.place_coin` (lines 132-141): append the new coordinate to every
near key's list, and bind the new coordinate to the list of near keys. -/
def placeCoin (m : Moves) (c : Coord) : Moves :=
  setEntry (m.map (fun e => if near c e.1 then (e.1, e.2 ++ [c]) else e)) c
    ((keysList m).filter (fun k => near c k))

/-- One step by the directional offset: `(move[0] + x_diff, move[1] + y_diff)`. -/
def step (d p : Coord) : Coord := (p.1 + d.1, p.2 + d.2)

/-- The negated offset, used by the second `while` loop of `has_win`. -/
def negD (d : Coord) : Coord := (-d.1, -d.2)

/-- One `while` loop of `Player.has_win` (lines 156-158 and 160-162): starting
at `p`, repeatedly step by `d` while the stepped coordinate is a member of
the current coordinate's adjacency list.  Returns the number of iterations;
`none` models a `KeyError` (current coordinate not a key) or fuel running
out. -/
def walkF (m : Moves) (d : Coord) : Nat → Coord → Option Nat
  | 0, _ => none
  | fuel + 1, p =>
    match lookupMoves m p with
    | none => none
    | some l =>
      if step d p ∈ l then
        match walkF m d fuel (step d p) with
        | none => none
        | some n => some (n + 1)
      else some 0

/-- The `length` computed by `has_win` for one connected neighbour `nb` of the
queried coin `c`: `2` plus the iterations of both directional loops. -/
def lengthFor (m : Moves) (fuel : Nat) (c nb : Coord) : Option Nat :=
  match walkF m (nb.1 - c.1, nb.2 - c.2) fuel nb,
        walkF m (negD (nb.1 - c.1, nb.2 - c.2)) fuel c with
  | some a, some b => some (2 + a + b)
  | _, _ => none

/-- The `for x, y in connected_moves` loop of `has_win` (lines 152-164) with
win threshold `thr`: return `true` at the first neighbour whose computed
length reaches the threshold, `false` after the loop. -/
def checkList (thr : Nat) (m : Moves) (fuel : Nat) (c : Coord) :
    List Coord → Option Bool
  | [] => some false
  | nb :: rest =>
    match lengthFor m fuel c nb with
    | none => none
    | some len => if thr ≤ len then some true else checkList thr m fuel c rest

/-- `Player.has_win` with explicit win threshold and loop fuel.  The initial
lookup `self._moves[(cx, cy)]` (line 151) raises (`none`) when the coin was
never recorded. -/
def hasWinFuel (thr fuel : Nat) (m : Moves) (c : Coord) : Option Bool :=
  match lookupMoves m c with
  | none => none
  | some l => checkList thr m fuel c l

/-- `Player.has_win` with explicit threshold, run with fuel `m.length + 1`
(proved sufficient for reachable mappings). -/
def hasWinWith (thr : Nat) (m : Moves) (c : Coord) : Option Bool :=
  hasWinFuel thr (m.length + 1) m c

/-- `Player.has_win` as written in the source: the comparison on line 163 is
`length >= 53`. -/
def hasWin (m : Moves) (c : Coord) : Option Bool := hasWinWith 53 m c

/-- Specification-side count of the consecutive recorded cells on the exact
line from `p` in direction `d`: how many of `p + d, p + 2d, ...` are keys of
the mapping, stopping at the first non-key (fuel-indexed). -/
def rayCountF (m : Moves) (d : Coord) : Nat → Coord → Nat
  | 0, _ => 0
  | fuel + 1, p =>
    if isKey m (step d p) then rayCountF m d fuel (step d p) + 1 else 0

/-- `rayCountF` with fuel `m.length`, which never truncates when `p` is a key
of a duplicate-free mapping. -/
def rayCount (m : Moves) (d p : Coord) : Nat := rayCountF m d m.length p

/-- The coordinate `p + j • d`. -/
def stepIter (d : Coord) (j : Nat) (p : Coord) : Coord :=
  (p.1 + (j : Int) * d.1, p.2 + (j : Int) * d.2)

/-- The moves mappings produced by a sequence of `Player.place_coin` calls on
distinct cells (a cell is placed at most once, which `Board.place_coin`
guarantees via the `placed` flag). -/
inductive Reachable : Moves → Prop where
  | nil : Reachable []
  | place {m : Moves} {c : Coord} : Reachable m → lookupMoves m c = none →
      Reachable (placeCoin m c)

/-- `square` as computed by `Board.__init__` (line 191):
`(COIN_RADIUS + 1) * 2`. -/
def square : Int := (COIN_RADIUS + 1) * 2

/-- `pos[0] in self.col_ranges[col]` where
`col_ranges[col] = range((col + 1) * square, (col + 2) * square)`. -/
def inColRange (col : Nat) (x : Int) : Bool :=
  ((col : Int) + 1) * square ≤ x && x < ((col : Int) + 2) * square

/-- The column-search loop of `Board.place_coin` (lines 212-216): the first
column whose pixel range contains `x`, `none` when the scan reaches
`COLUMNS`. -/
def findCol (x : Int) : Option Nat :=
  (List.range COLUMNS).find? (fun col => inColRange col x)

/-- The row-search loop of `Board.place_coin` (lines 218-224): scan the
`placed` flags of a column from row `fuel - 1` downwards to row 0 and return
the first row that is not placed; `none` corresponds to the scan ending at
`row == -1` (column full).  Called with `fuel = ROWS`. -/
def findRowAux (l : List Bool) : Nat → Option Nat
  | 0 => none
  | r + 1 => if l.getD r true then findRowAux l r else some r

/-- A board column (the `placed` flags of `coins[col]`) with a coin dropped
into its lowest unplaced row, unchanged when full. -/
def dropCol (l : List Bool) : List Bool :=
  match findRowAux l ROWS with
  | some r => l.set r true
  | none => l

/-- `Board.place_coin` (lines 202-227) restricted to the game-relevant state:
the board is the matrix of `placed` flags (`b.getD col []` is column `col`),
`pm` is the placing player's moves mapping.  On success it returns the placed
coin's `(col, row)` coordinate, the updated board, and the updated mapping;
`none` is the silent failure (`return` with no value). -/
def boardPlaceCoin (b : List (List Bool)) (pm : Moves) (pos : Coord) :
    Option (Coord × List (List Bool) × Moves) :=
  match findCol pos.1 with
  | none => none
  | some col =>
    match findRowAux (b.getD col []) ROWS with
    | none => none
    | some row =>
      some (((col : Int), (row : Int)),
        b.set col ((b.getD col []).set row true),
        placeCoin pm ((col : Int), (row : Int)))

/-- The per-column `placed` flags of a fresh `Board` (`Board.__init__`). -/
def initCols : List (List Bool) :=
  List.replicate COLUMNS (List.replicate ROWS false)

/-- The outcome of `Connect4._event_loop`: still looping, or broken out with
the win message for a player, or broken out with the tie message. -/
inductive Outcome where
  | inProgress : Outcome
  | won : Bool → Outcome
  | tied : Outcome
deriving DecidableEq

/-- The game-relevant state of `Connect4._event_loop`: the board's `placed`
flags, both players' moves mappings, `cur_player`, `moves_made`, and whether
the loop has terminated. -/
structure GameState where
  board : List (List Bool)
  moves0 : Moves
  moves1 : Moves
  curPlayer : Bool
  movesMade : Nat
  outcome : Outcome
deriving DecidableEq

/-- `self.players[cur_player]`'s moves mapping. -/
def activeMoves (s : GameState) : Moves :=
  if s.curPlayer then s.moves1 else s.moves0

/-- The state at the top of `_event_loop` (lines 286-287): player 0 active,
no moves made. -/
def initGame : GameState :=
  { board := initCols, moves0 := [], moves1 := [], curPlayer := false,
    movesMade := 0, outcome := Outcome.inProgress }

/-- One `MOUSEBUTTONUP` iteration of `Connect4._event_loop` (lines 294-307)
at click position `pos`.  A terminated loop processes no event (the loop has
been left), a failed placement only prints a prompt, a win breaks before
`moves_made` is incremented, a tie breaks before `cur_player` flips.  `none`
models an uncaught exception from `has_win`. -/
def stepGame (s : GameState) (pos : Coord) : Option GameState :=
  match s.outcome with
  | Outcome.won _ => some s
  | Outcome.tied => some s
  | Outcome.inProgress =>
    match boardPlaceCoin s.board (activeMoves s) pos with
    | none => some s
    | some (coin, b2, pm2) =>
      let s2 : GameState :=
        { s with board := b2,
                 moves0 := if s.curPlayer then s.moves0 else pm2,
                 moves1 := if s.curPlayer then pm2 else s.moves1 }
      match hasWin pm2 coin with
      | none => none
      | some true => some { s2 with outcome := Outcome.won s.curPlayer }
      | some false =>
        if s.movesMade + 1 = COLUMNS * ROWS then
          some { s2 with movesMade := s.movesMade + 1,
                         outcome := Outcome.tied }
        else
          some { s2 with movesMade := s.movesMade + 1,
                         curPlayer := !s.curPlayer }

/-- The radius sentence of `InvalidValueError.__init__` (lines 33-35). -/
def radiusMsg : String :=
  "Please enter a value for the coin radius that is greater than 0. "

/-- The rows sentence of `InvalidValueError.__init__` (lines 36-38). -/
def rowsMsg : String :=
  "Please enter a value for the number of rows that is greater than 0. "

/-- The columns sentence of `InvalidValueError.__init__` (lines 39-41). -/
def colsMsg : String :=
  "Please enter a value for the number of columns that is greater than 0. "

/-- The message built by `InvalidValueError.__init__` (lines 31-42). -/
def invalidValueMessage (radius rows cols : Int) : String :=
  (if radius ≤ 0 then radiusMsg else "") ++
  (if rows ≤ 0 then rowsMsg else "") ++
  (if cols ≤ 0 then colsMsg else "")

/-- The `__main__` guard (lines 327-328): raise `InvalidValueError` unless
radius, rows and columns are all positive. -/
def checkValues (radius rows cols : Int) : Except String Unit :=
  if ¬(radius > 0 ∧ rows > 0 ∧ cols > 0) then
    Except.error (invalidValueMessage radius rows cols)
  else Except.ok ()

/-- The moves mapping of a player who placed coins at the bottom row of
columns 0, 1, 2, 3 (in that order): a horizontal run of four. -/
def demoMoves : Moves :=
  placeCoin (placeCoin (placeCoin (placeCoin [] (0, 5)) (1, 5)) (2, 5)) (3, 5)

/-! ### Association-list lemmas -/

theorem lookup_eq_none_iff {m : Moves} {p : Coord} :
    lookupMoves m p = none ↔ p ∉ keysList m := by
  induction m with
  | nil => simp [lookupMoves, keysList]
  | cons e rest ih =>
    by_cases h : e.1 = p
    · subst h
      simp [lookupMoves, keysList]
    · simp [lookupMoves, keysList, h, ih, Ne.symm h]

theorem isKey_iff_mem {m : Moves} {p : Coord} :
    isKey m p = true ↔ p ∈ keysList m := by
  rw [isKey, Option.isSome_iff_ne_none, ne_eq, not_iff_comm, lookup_eq_none_iff]

theorem isKey_eq_false_iff {m : Moves} {p : Coord} :
    isKey m p = false ↔ lookupMoves m p = none := by
  rw [Bool.eq_false_iff, ne_eq, isKey_iff_mem, lookup_eq_none_iff]

theorem lookup_isSome_of_some {m : Moves} {p : Coord} {l : List Coord}
    (h : lookupMoves m p = some l) : isKey m p = true := by
  simp [isKey, h]

theorem lookup_append {m1 m2 : Moves} {p : Coord} :
    lookupMoves (m1 ++ m2) p =
      match lookupMoves m1 p with
      | some v => some v
      | none => lookupMoves m2 p := by
  induction m1 with
  | nil => simp [lookupMoves]
  | cons e rest ih =>
    by_cases h : e.1 = p
    · simp [lookupMoves, h]
    · simp [lookupMoves, h, ih]

theorem keys_append {m1 m2 : Moves} :
    keysList (m1 ++ m2) = keysList m1 ++ keysList m2 := by
  simp [keysList]

/-! ### Effect of `placeCoin` on the mapping -/

theorem lookup_map_upd {m : Moves} {c p : Coord} :
    lookupMoves (m.map (fun e => if near c e.1 then (e.1, e.2 ++ [c]) else e)) p
      = (lookupMoves m p).map (fun v => if near c p then v ++ [c] else v) := by
  induction m with
  | nil => simp [lookupMoves]
  | cons e rest ih =>
    by_cases h : e.1 = p
    · subst h
      by_cases hn : near c e.1 <;> simp [lookupMoves, hn]
    · by_cases hn : near c e.1 <;> simp [lookupMoves, h, hn, ih]

theorem keys_map_upd {m : Moves} {c : Coord} :
    keysList (m.map (fun e => if near c e.1 then (e.1, e.2 ++ [c]) else e))
      = keysList m := by
  induction m with
  | nil => rfl
  | cons e rest ih =>
    by_cases hn : near c e.1 <;> simp [keysList, hn] <;>
      simpa [keysList] using ih

theorem keys_map_of_fst {f : Coord × List Coord → Coord × List Coord}
    (hf : ∀ e, (f e).1 = e.1) (m : Moves) : keysList (m.map f) = keysList m := by
  induction m with
  | nil => rfl
  | cons e rest ih =>
    simp only [keysList, List.map_cons, List.map_map] at ih ⊢
    rw [hf e]
    exact congrArg (e.1 :: ·) ih

theorem lookup_replace_self {m : Moves} {k : Coord} {v : List Coord} :
    lookupMoves (m.map (fun e => if e.1 = k then (k, v) else e)) k
      = (lookupMoves m k).map (fun _ => v) := by
  induction m with
  | nil => rfl
  | cons e rest ih =>
    by_cases he : e.1 = k
    · simp [lookupMoves, he]
    · simp [lookupMoves, he, ih]

theorem lookup_replace_ne {m : Moves} {k p : Coord} {v : List Coord}
    (h : p ≠ k) :
    lookupMoves (m.map (fun e => if e.1 = k then (k, v) else e)) p
      = lookupMoves m p := by
  induction m with
  | nil => rfl
  | cons e rest ih =>
    by_cases he : e.1 = k
    · have hne : ¬(e.1 = p) := fun hh => h (hh ▸ he ▸ rfl)
      simp [lookupMoves, he, Ne.symm h, hne, ih]
    · by_cases hp : e.1 = p <;> simp [lookupMoves, he, hp, h, ih]

theorem lookup_setEntry_self {m : Moves} {k : Coord} {v : List Coord} :
    lookupMoves (setEntry m k v) k = some v := by
  rw [setEntry]
  by_cases h : (lookupMoves m k).isSome
  · rw [if_pos h, lookup_replace_self]
    cases hmk : lookupMoves m k with
    | some v2 => rfl
    | none => rw [hmk] at h; simp at h
  · rw [if_neg h, lookup_append]
    cases hmk : lookupMoves m k with
    | some v2 => rw [hmk] at h; simp at h
    | none => simp [lookupMoves]

theorem lookup_setEntry_ne {m : Moves} {k p : Coord} {v : List Coord}
    (h : p ≠ k) : lookupMoves (setEntry m k v) p = lookupMoves m p := by
  rw [setEntry]
  by_cases hs : (lookupMoves m k).isSome
  · rw [if_pos hs, lookup_replace_ne h]
  · rw [if_neg hs, lookup_append]
    cases hmp : lookupMoves m p with
    | some v2 => rfl
    | none => simp [lookupMoves, Ne.symm h]

theorem keys_setEntry {m : Moves} {k : Coord} {v : List Coord} :
    keysList (setEntry m k v) =
      if isKey m k then keysList m else keysList m ++ [k] := by
  rw [setEntry, isKey]
  by_cases hs : (lookupMoves m k).isSome
  · rw [if_pos hs, if_pos hs]
    exact keys_map_of_fst (fun e => by by_cases he : e.1 = k <;> simp [he]) m
  · rw [if_neg hs, if_neg hs, keys_append]
    rfl

theorem placeCoin_lookup_self {m : Moves} {c : Coord} :
    lookupMoves (placeCoin m c) c =
      some ((keysList m).filter (fun k => near c k)) := by
  rw [placeCoin, lookup_setEntry_self]

theorem placeCoin_lookup_ne {m : Moves} {c p : Coord} (h : p ≠ c) :
    lookupMoves (placeCoin m c) p =
      (lookupMoves m p).map (fun v => if near c p then v ++ [c] else v) := by
  rw [placeCoin, lookup_setEntry_ne h, lookup_map_upd]

theorem placeCoin_keys {m : Moves} {c : Coord} :
    keysList (placeCoin m c) =
      if isKey m c then keysList m else keysList m ++ [c] := by
  rw [placeCoin, keys_setEntry, keys_map_upd]
  have : isKey (m.map (fun e => if near c e.1 then (e.1, e.2 ++ [c]) else e)) c
      = isKey m c := by
    rw [isKey, isKey, lookup_map_upd]
    cases lookupMoves m c <;> simp
  rw [this]

theorem placeCoin_keys_fresh {m : Moves} {c : Coord}
    (h : lookupMoves m c = none) :
    keysList (placeCoin m c) = keysList m ++ [c] := by
  rw [placeCoin_keys, isKey, h]
  rfl

theorem placeCoin_length_fresh {m : Moves} {c : Coord}
    (h : lookupMoves m c = none) :
    (placeCoin m c).length = m.length + 1 := by
  have h1 : (keysList (placeCoin m c)).length = (keysList m ++ [c]).length := by
    rw [placeCoin_keys_fresh h]
  simpa [keysList] using h1

theorem isKey_placeCoin {m : Moves} {c p : Coord} :
    isKey (placeCoin m c) p = true ↔ (isKey m p = true ∨ p = c) := by
  rw [isKey_iff_mem, placeCoin_keys]
  by_cases hk : isKey m c
  · rw [if_pos hk, isKey_iff_mem]
    constructor
    · exact fun h => Or.inl h
    · rintro (h | rfl)
      · exact h
      · exact isKey_iff_mem.mp hk
  · rw [if_neg hk, isKey_iff_mem]
    simp

/-! ### The neighbourhood test and the Chebyshev distance -/

/-- Chebyshev distance between two coordinates. -/
def cheb (a b : Coord) : Int := max |a.1 - b.1| |a.2 - b.2|

theorem near_iff_cheb {a b : Coord} : near a b = true ↔ cheb a b ≤ 1 := by
  rw [cheb, max_le_iff, abs_le, abs_le]
  simp only [near, Bool.and_eq_true, Bool.or_eq_true, beq_iff_eq]
  omega

theorem near_symm (a b : Coord) : near a b = near b a := by
  rw [Bool.eq_iff_iff, near_iff_cheb, near_iff_cheb, cheb, cheb,
    abs_sub_comm a.1 b.1, abs_sub_comm a.2 b.2]

theorem near_step {d p : Coord} (h1 : -1 ≤ d.1) (h2 : d.1 ≤ 1)
    (h3 : -1 ≤ d.2) (h4 : d.2 ≤ 1) : near p (step d p) = true := by
  simp only [near, step, Bool.and_eq_true, Bool.or_eq_true, beq_iff_eq]
  omega

theorem step_ne_self {d p : Coord} (hd : d ≠ (0, 0)) : step d p ≠ p := by
  intro h
  apply hd
  have h1 := congrArg Prod.fst h
  have h2 := congrArg Prod.snd h
  simp only [step] at h1 h2
  have : d.1 = 0 := by omega
  have : d.2 = 0 := by omega
  exact Prod.ext (by omega) (by omega)

/-! ### The reachability invariant of the moves mapping -/

/-- Invariant of every mapping built by `Player.place_coin` on distinct
cells: keys are unique, and a coordinate `b` is in the adjacency list of a
key `a` exactly when `b` is another key at Chebyshev distance at most 1. -/
def Inv (m : Moves) : Prop :=
  (keysList m).Nodup ∧
  ∀ a l, lookupMoves m a = some l →
    ∀ b, b ∈ l ↔ (isKey m b = true ∧ b ≠ a ∧ near a b = true)

theorem reachable_inv {m : Moves} (h : Reachable m) : Inv m := by
  induction h with
  | nil =>
    constructor
    · simp [keysList]
    · intro a l hl
      simp [lookupMoves] at hl
  | place hr hc ih =>
    rename_i m c
    have hcnot : c ∉ keysList m := lookup_eq_none_iff.mp hc
    constructor
    · rw [placeCoin_keys_fresh hc]
      simp [List.nodup_append, ih.1, hcnot]
    · intro a l hl b
      by_cases ha : a = c
      · subst ha
        rw [placeCoin_lookup_self] at hl
        cases hl
        by_cases hb : b = a
        · subst hb
          simp [List.mem_filter, ← isKey_iff_mem, isKey_eq_false_iff.mpr hc]
        · simp only [List.mem_filter, ← isKey_iff_mem, isKey_placeCoin,
            decide_eq_true_eq]
          constructor
          · rintro ⟨hk, hn⟩
            exact ⟨Or.inl hk, hb, hn⟩
          · rintro ⟨hk | rfl, _, hn⟩
            · exact ⟨hk, hn⟩
            · exact absurd rfl hb
      · rw [placeCoin_lookup_ne ha] at hl
        cases hla : lookupMoves m a with
        | none => rw [hla] at hl; cases hl
        | some la =>
          rw [hla] at hl
          have hchar := ih.2 a la hla
          have hcla : c ∉ la := by
            intro hmem
            exact absurd ((hchar c).mp hmem).1
              (by rw [isKey_eq_false_iff.mpr hc]; simp)
          simp only [Option.map_some'] at hl
          by_cases hb : b = c
          · rw [hb]
            by_cases hnca : near c a
            · rw [if_pos hnca] at hl
              cases hl
              simp only [List.mem_append, List.mem_singleton, hcla,
                false_or, true_iff]
              refine ⟨isKey_placeCoin.mpr (Or.inr rfl), Ne.symm ha, ?_⟩
              rw [near_symm]
              exact hnca
            · rw [if_neg hnca] at hl
              cases hl
              simp only [hcla, false_iff, not_and]
              intro _ _
              rw [near_symm]
              exact hnca
          · have hl2 : b ∈ l ↔ b ∈ la := by
              by_cases hnca : near c a
              · rw [if_pos hnca] at hl
                cases hl
                simp [hb]
              · rw [if_neg hnca] at hl
                cases hl
                rfl
            rw [hl2, hchar b, isKey_placeCoin]
            constructor
            · rintro ⟨hk, hne, hn⟩
              exact ⟨Or.inl hk, hne, hn⟩
            · rintro ⟨hk | rfl, hne, hn⟩
              · exact ⟨hk, hne, hn⟩
              · exact absurd rfl hb

/-! ### Arithmetic of iterated steps -/

theorem stepIter_one {d p : Coord} : stepIter d 1 p = step d p := by
  simp [stepIter, step]

theorem stepIter_step {d p : Coord} {j : Nat} :
    stepIter d j (step d p) = stepIter d (j + 1) p := by
  simp only [stepIter, step, Prod.mk.injEq]
  push_cast
  constructor <;> ring

theorem stepIter_inj {d : Coord} (hd : d ≠ (0, 0)) {p : Coord} {i j : Nat}
    (h : stepIter d i p = stepIter d j p) : i = j := by
  have h1 := congrArg Prod.fst h
  have h2 := congrArg Prod.snd h
  simp only [stepIter] at h1 h2
  have h1' : (i : Int) * d.1 = (j : Int) * d.1 := by omega
  have h2' : (i : Int) * d.2 = (j : Int) * d.2 := by omega
  have hd' : d.1 ≠ 0 ∨ d.2 ≠ 0 := by
    by_contra hcon
    push_neg at hcon
    exact hd (Prod.ext hcon.1 hcon.2)
  rcases hd' with hd1 | hd2
  · exact_mod_cast mul_right_cancel₀ hd1 h1'
  · exact_mod_cast mul_right_cancel₀ hd2 h2'

theorem stepIter_ne_self {d : Coord} (hd : d ≠ (0, 0)) {p : Coord} {j : Nat} :
    stepIter d (j + 1) p ≠ p := by
  intro h
  have h0 : stepIter d 0 p = p := by simp [stepIter]
  exact absurd (stepIter_inj hd (h.trans h0.symm)) (by omega)

/-! ### A run of consecutive keys is bounded by the number of entries -/

theorem key_run_le {m : Moves} {p d : Coord} {k : Nat}
    (hp : isKey m p = true) (hd : d ≠ (0, 0))
    (hk : ∀ j, 1 ≤ j → j ≤ k → isKey m (stepIter d j p) = true) :
    k + 1 ≤ m.length := by
  have hinj : Function.Injective (fun j : Nat => stepIter d (j + 1) p) := by
    intro i j h
    have := stepIter_inj hd h
    omega
  have hnodup : (p :: (List.range k).map
      (fun j => stepIter d (j + 1) p)).Nodup := by
    rw [List.nodup_cons]
    constructor
    · intro hmem
      rcases List.mem_map.mp hmem with ⟨j, _, hj⟩
      exact stepIter_ne_self hd hj
    · exact (List.nodup_range k).map hinj
  have hsub : (p :: (List.range k).map
      (fun j => stepIter d (j + 1) p)) ⊆ keysList m := by
    intro x hx
    rcases List.mem_cons.mp hx with rfl | hx2
    · exact isKey_iff_mem.mp hp
    · rcases List.mem_map.mp hx2 with ⟨j, hjr, rfl⟩
      exact isKey_iff_mem.mp (hk (j + 1) (by omega)
        (by have := List.mem_range.mp hjr; omega))
  have hlen := (hnodup.subperm hsub).length_le
  simpa [keysList] using hlen

/-! ### Characterisation of the directional walks -/

/-- `t` is the exact length of the run of consecutive keys from `p` (exclusive)
in direction `d`. -/
def RunChar (m : Moves) (d p : Coord) (t : Nat) : Prop :=
  (∀ j, 1 ≤ j → j ≤ t → isKey m (stepIter d j p) = true) ∧
  isKey m (stepIter d (t + 1) p) = false

theorem runChar_shift {m : Moves} {d p : Coord} {t : Nat}
    (h : RunChar m d p (t + 1)) : RunChar m d (step d p) t := by
  constructor
  · intro j h1 h2
    rw [stepIter_step]
    exact h.1 (j + 1) (by omega) (by omega)
  · rw [stepIter_step]
    exact h.2

theorem rayCountF_eq_of_char {m : Moves} {d : Coord} {t : Nat} :
    ∀ {f : Nat} {p : Coord}, RunChar m d p t → t < f →
      rayCountF m d f p = t := by
  induction t with
  | zero =>
    intro f p hchar hf
    match f, hf with
    | f + 1, _ =>
      have h2 : isKey m (step d p) = false := by
        rw [← stepIter_one]
        exact hchar.2
      simp [rayCountF, h2]
  | succ t ih =>
    intro f p hchar hf
    match f, hf with
    | f + 1, hf =>
      have hk1 : isKey m (step d p) = true := by
        rw [← stepIter_one]
        exact hchar.1 1 (by omega) (by omega)
      simp [rayCountF, hk1, ih (runChar_shift hchar) (show t < f by omega)]

theorem walkF_eq_of_char {m : Moves} {d : Coord} (hInv : Inv m)
    (hd : d ≠ (0, 0)) (hd1 : -1 ≤ d.1) (hd2 : d.1 ≤ 1) (hd3 : -1 ≤ d.2)
    (hd4 : d.2 ≤ 1) : ∀ {t f : Nat} {p : Coord}, isKey m p = true →
      RunChar m d p t → t < f → walkF m d f p = some t := by
  intro t
  induction t with
  | zero =>
    intro f p hp hchar hf
    match f, hf with
    | f + 1, _ =>
      rcases Option.isSome_iff_exists.mp hp with ⟨l, hl⟩
      have hmem := hInv.2 p l hl (step d p)
      have hnotmem : step d p ∉ l := by
        intro hin
        have := ((hmem.mp hin).1)
        rw [← stepIter_one] at this
        rw [hchar.2] at this
        cases this
      simp only [walkF, hl, if_neg hnotmem]
  | succ t ih =>
    intro f p hp hchar hf
    match f, hf with
    | f + 1, hf =>
      rcases Option.isSome_iff_exists.mp hp with ⟨l, hl⟩
      have hk1 : isKey m (step d p) = true := by
        rw [← stepIter_one]
        exact hchar.1 1 (by omega) (by omega)
      have hmem : step d p ∈ l := by
        rw [hInv.2 p l hl (step d p)]
        exact ⟨hk1, step_ne_self hd, near_step hd1 hd2 hd3 hd4⟩
      simp only [walkF, hl, if_pos hmem,
        ih hk1 (runChar_shift hchar) (show t < f by omega)]

theorem exists_runChar {m : Moves} {d p : Coord}
    (hp : isKey m p = true) (hd : d ≠ (0, 0)) :
    ∃ t, RunChar m d p t ∧ t + 1 ≤ m.length := by
  have hex : ∃ j, isKey m (stepIter d (j + 1) p) = false := by
    by_contra hcon
    push_neg at hcon
    have hall : ∀ j, 1 ≤ j → j ≤ m.length →
        isKey m (stepIter d j p) = true := by
      intro j h1 _
      match j, h1 with
      | j + 1, _ =>
        have := hcon j
        simpa using Bool.not_eq_false _ |>.mp (by simpa using this)
    have := key_run_le hp hd hall
    omega
  classical
  let t := Nat.find hex
  have ht2 : isKey m (stepIter d (t + 1) p) = false := Nat.find_spec hex
  have ht1 : ∀ j, 1 ≤ j → j ≤ t → isKey m (stepIter d j p) = true := by
    intro j h1 h2
    match j, h1 with
    | j + 1, _ =>
      have hlt : j < t := by omega
      have := Nat.find_min hex hlt
      exact Bool.not_eq_false _ |>.mp (by simpa using this)
  refine ⟨t, ⟨ht1, ht2⟩, ?_⟩
  exact key_run_le hp hd ht1

theorem stepIter_zero {d p : Coord} : stepIter d 0 p = p := by
  simp [stepIter]

theorem walk_main {m : Moves} {d p : Coord} (hInv : Inv m)
    (hp : isKey m p = true) (hd : d ≠ (0, 0)) (hd1 : -1 ≤ d.1) (hd2 : d.1 ≤ 1)
    (hd3 : -1 ≤ d.2) (hd4 : d.2 ≤ 1) {f : Nat} (hf : m.length < f) :
    walkF m d f p = some (rayCount m d p) ∧ rayCount m d p + 1 ≤ m.length := by
  obtain ⟨t, hchar, hb⟩ := exists_runChar hp hd
  have hray : rayCount m d p = t := rayCountF_eq_of_char hchar (by omega)
  rw [hray]
  exact ⟨walkF_eq_of_char hInv hd hd1 hd2 hd3 hd4 hp hchar (by omega), hb⟩

theorem rayCount_succ_of_step {m : Moves} {d c nb : Coord}
    (hc : isKey m c = true) (hnb : isKey m nb = true) (hd : d ≠ (0, 0))
    (hstep : step d c = nb) :
    rayCount m d c = rayCount m d nb + 1 := by
  obtain ⟨t, hchar, hb⟩ := exists_runChar hnb hd
  have hraynb : rayCount m d nb = t := rayCountF_eq_of_char hchar (by omega)
  have hshift : ∀ j : Nat, stepIter d (j + 1) c = stepIter d j nb := by
    intro j
    rw [← hstep, stepIter_step]
  have hchar2 : RunChar m d c (t + 1) := by
    constructor
    · intro j h1 h2
      match j, h1 with
      | j + 1, _ =>
        rw [hshift j]
        match j with
        | 0 => rw [stepIter_zero]; exact hnb
        | j + 1 => exact hchar.1 (j + 1) (by omega) (by omega)
    · rw [hshift (t + 1)]
      exact hchar.2
  have hb2 : (t + 1) + 1 ≤ m.length := key_run_le hc hd hchar2.1
  have hrayc : rayCount m d c = t + 1 := rayCountF_eq_of_char hchar2 (by omega)
  rw [hrayc, hraynb]

theorem neighbour_facts {m : Moves} {c nb : Coord} {l : List Coord}
    (hInv : Inv m) (hl : lookupMoves m c = some l) (hnb : nb ∈ l) :
    isKey m nb = true ∧ (nb.1 - c.1, nb.2 - c.2) ≠ ((0 : Int), (0 : Int)) ∧
      -1 ≤ nb.1 - c.1 ∧ nb.1 - c.1 ≤ 1 ∧ -1 ≤ nb.2 - c.2 ∧ nb.2 - c.2 ≤ 1 ∧
      step (nb.1 - c.1, nb.2 - c.2) c = nb := by
  obtain ⟨hkey, hne, hnear⟩ := (hInv.2 c l hl nb).mp hnb
  have hb : -1 ≤ nb.1 - c.1 ∧ nb.1 - c.1 ≤ 1 ∧ -1 ≤ nb.2 - c.2 ∧
      nb.2 - c.2 ≤ 1 := by
    rw [near_iff_cheb, cheb, max_le_iff, abs_le, abs_le] at hnear
    omega
  refine ⟨hkey, ?_, hb.1, hb.2.1, hb.2.2.1, hb.2.2.2, ?_⟩
  · intro h
    have h1 := congrArg Prod.fst h
    have h2 := congrArg Prod.snd h
    simp only at h1 h2
    exact hne (Prod.ext (by omega) (by omega))
  · exact Prod.ext (by simp [step]) (by simp [step])

theorem lengthFor_eq {m : Moves} {c nb : Coord} {l : List Coord} (hInv : Inv m)
    (hl : lookupMoves m c = some l) (hnb : nb ∈ l) {f : Nat}
    (hf : m.length < f) :
    lengthFor m f c nb =
      some (1 + rayCount m (nb.1 - c.1, nb.2 - c.2) c
              + rayCount m (negD (nb.1 - c.1, nb.2 - c.2)) c) := by
  obtain ⟨hkey, hd0, b1, b2, b3, b4, hstep⟩ := neighbour_facts hInv hl hnb
  have hc : isKey m c = true := lookup_isSome_of_some hl
  have hd0n : negD (nb.1 - c.1, nb.2 - c.2) ≠ ((0 : Int), (0 : Int)) := by
    intro h
    apply hd0
    have h1 := congrArg Prod.fst h
    have h2 := congrArg Prod.snd h
    simp only [negD] at h1 h2
    exact Prod.ext (by omega) (by omega)
  have hfwd := walk_main hInv hkey hd0 b1 b2 b3 b4 hf
  have hbwd := walk_main (d := negD (nb.1 - c.1, nb.2 - c.2)) hInv hc hd0n
    (by simp [negD]; omega) (by simp [negD]; omega) (by simp [negD]; omega)
    (by simp [negD]; omega) hf
  have hsucc : rayCount m (nb.1 - c.1, nb.2 - c.2) c
      = rayCount m (nb.1 - c.1, nb.2 - c.2) nb + 1 :=
    rayCount_succ_of_step hc hkey hd0 hstep
  simp only [lengthFor, hfwd.1, hbwd.1, hsucc, Option.some.injEq]
  omega

theorem checkList_stable (thr : Nat) {m : Moves} {c : Coord} {l : List Coord}
    (hInv : Inv m) (hl : lookupMoves m c = some l) :
    ∀ (sub : List Coord), (∀ nb ∈ sub, nb ∈ l) → ∀ {f : Nat}, m.length < f →
      checkList thr m f c sub = checkList thr m (m.length + 1) c sub ∧
      (checkList thr m (m.length + 1) c sub).isSome = true := by
  intro sub
  induction sub with
  | nil =>
    intro _ f hf
    simp [checkList]
  | cons nb rest ih =>
    intro hmem f hf
    have hnb : nb ∈ l := hmem nb (List.mem_cons_self nb rest)
    have h1 := lengthFor_eq hInv hl hnb hf
    have h2 := lengthFor_eq hInv hl hnb (show m.length < m.length + 1 by omega)
    have ihr1 := ih (fun x hx => hmem x (List.mem_cons_of_mem nb hx)) hf
    have ihr2 := ih (fun x hx => hmem x (List.mem_cons_of_mem nb hx))
      (show m.length < m.length + 1 by omega)
    by_cases hthr : thr ≤ 1 + rayCount m (nb.1 - c.1, nb.2 - c.2) c
        + rayCount m (negD (nb.1 - c.1, nb.2 - c.2)) c
    · simp [checkList, h1, h2, if_pos hthr]
    · simp only [checkList, h1, h2, if_neg hthr]
      exact ⟨ihr1.1, ihr2.2⟩

theorem hasWinFuel_stable (thr : Nat) {m : Moves} {c : Coord} (hInv : Inv m)
    (hkey : isKey m c = true) {f : Nat} (hf : m.length < f) :
    hasWinFuel thr f m c = hasWinWith thr m c ∧
    (hasWinWith thr m c).isSome = true := by
  rcases Option.isSome_iff_exists.mp hkey with ⟨l, hl⟩
  have hsub : ∀ nb ∈ l, nb ∈ l := fun nb h => h
  have h1 := checkList_stable thr hInv hl l hsub hf
  have h2 := checkList_stable thr hInv hl l hsub
    (show m.length < m.length + 1 by omega)
  rw [hasWinWith, hasWinFuel, hasWinFuel, hl]
  exact ⟨h1.1, h2.2⟩

/-! ### The row scan of `Board.place_coin` -/

theorem findRowAux_none_iff {l : List Bool} :
    ∀ {n : Nat}, findRowAux l n = none ↔ ∀ r, r < n → l.getD r true = true := by
  intro n
  induction n with
  | zero => simp [findRowAux]
  | succ n ih =>
    rw [findRowAux]
    by_cases h : l.getD n true = true
    · rw [if_pos h, ih]
      constructor
      · intro ha r hr
        by_cases hrn : r = n
        · exact hrn ▸ h
        · exact ha r (by omega)
      · intro ha r hr
        exact ha r (by omega)
    · rw [if_neg h]
      constructor
      · intro hc
        cases hc
      · intro ha
        exact absurd (ha n (by omega)) h

theorem findRowAux_some {l : List Bool} :
    ∀ {n r : Nat}, findRowAux l n = some r →
      r < n ∧ l.getD r true = false ∧
        ∀ r2, r < r2 → r2 < n → l.getD r2 true = true := by
  intro n
  induction n with
  | zero =>
    intro r h
    cases h
  | succ n ih =>
    intro r h
    rw [findRowAux] at h
    by_cases hg : l.getD n true = true
    · rw [if_pos hg] at h
      obtain ⟨h1, h2, h3⟩ := ih h
      refine ⟨by omega, h2, fun r2 ha hb => ?_⟩
      by_cases hrn : r2 = n
      · exact hrn ▸ hg
      · exact h3 r2 ha (by omega)
    · rw [if_neg hg] at h
      cases h
      exact ⟨by omega, by simpa using hg, fun r2 ha hb => by omega⟩

theorem findRowAux_exists {l : List Bool} {n : Nat}
    (h : ∃ r, r < n ∧ l.getD r true = false) :
    ∃ row, findRowAux l n = some row := by
  cases hfa : findRowAux l n with
  | some row => exact ⟨row, rfl⟩
  | none =>
    obtain ⟨r, hr, hg⟩ := h
    rw [findRowAux_none_iff] at hfa
    rw [hfa r hr] at hg
    cases hg

theorem getD_false_lt_length {l : List Bool} {r : Nat}
    (h : l.getD r true = false) : r < l.length := by
  by_contra hcon
  rw [List.getD_eq_getElem?_getD, List.getElem?_eq_none (by omega)] at h
  cases h

theorem getD_set_self2 {l : List Bool} {r : Nat} (h : r < l.length) :
    (l.set r true).getD r true = true := by
  rw [List.getD_eq_getElem?_getD, List.getElem?_set_self h]
  rfl

theorem getD_set_ne2 {l : List Bool} {r j : Nat} (h : r ≠ j) :
    (l.set r true).getD j true = l.getD j true := by
  rw [List.getD_eq_getElem?_getD, List.getElem?_set_ne h,
    ← List.getD_eq_getElem?_getD]

/-! ### The gravity invariant -/

/-- Gravity invariant of one column: the placed cells form a contiguous block
at the bottom (any placed cell has every cell below it placed). -/
def ColContig (l : List Bool) : Prop :=
  ∀ r1, r1 < l.length → ∀ r2, r2 < l.length → r1 ≤ r2 →
    l.getD r1 true = true → l.getD r2 true = true

instance colContigDecidable (l : List Bool) : Decidable (ColContig l) :=
  inferInstanceAs (Decidable (∀ r1, r1 < l.length → ∀ r2, r2 < l.length →
    r1 ≤ r2 → l.getD r1 true = true → l.getD r2 true = true))

instance decEqPlaceResult :
    DecidableEq (Coord × List (List Bool) × Moves) :=
  fun a b => instDecidableEqProd a b

theorem dropCol_contig {l : List Bool} (hlen : l.length = ROWS)
    (hc : ColContig l) : ColContig (dropCol l) := by
  rw [dropCol]
  cases hfa : findRowAux l ROWS with
  | none => exact hc
  | some r =>
    obtain ⟨hrn, hgf, habove⟩ := findRowAux_some hfa
    have hrlen : r < l.length := getD_false_lt_length hgf
    intro r1 h1 r2 h2 hle hg1
    rw [List.length_set] at h1 h2
    by_cases h2r : r2 = r
    · rw [h2r]
      exact getD_set_self2 hrlen
    · rw [getD_set_ne2 (fun hh => h2r hh.symm)]
      by_cases h1r : r1 = r
      · exact habove r2 (by omega) (by omega)
      · rw [getD_set_ne2 (fun hh => h1r hh.symm)] at hg1
        exact hc r1 h1 r2 h2 hle hg1

theorem getD_mix {a n j : Nat} :
    (List.replicate a false ++ List.replicate n true).getD j true
      = if j < a then false else true := by
  rw [List.getD_eq_getElem?_getD, List.getElem?_append]
  by_cases hj : j < a
  · simp [hj, List.getElem?_replicate, List.length_replicate]
  · simp only [List.length_replicate, if_neg hj, List.getElem?_replicate]
    by_cases hj2 : j - a < n <;> simp [hj2]

theorem findRowAux_mix {a n : Nat} (h : a + 1 + n = ROWS) :
    findRowAux (List.replicate (a + 1) false ++ List.replicate n true) ROWS
      = some a := by
  cases hfa : findRowAux
      (List.replicate (a + 1) false ++ List.replicate n true) ROWS with
  | none =>
    rw [findRowAux_none_iff] at hfa
    have := hfa a (by omega)
    rw [getD_mix, if_pos (by omega)] at this
    cases this
  | some r =>
    obtain ⟨h1, h2, h3⟩ := findRowAux_some hfa
    rw [getD_mix] at h2
    have hra : r < a + 1 := by
      by_contra hcon
      rw [if_neg hcon] at h2
      cases h2
    by_cases hr : r = a
    · exact hr ▸ rfl
    · have := h3 a (by omega) (by omega)
      rw [getD_mix, if_pos (by omega)] at this
      cases this

theorem replicate_set : ∀ (a n : Nat),
    (List.replicate (a + 1) false ++ List.replicate n true).set a true
      = List.replicate a false ++ List.replicate (n + 1) true := by
  intro a
  induction a with
  | zero =>
    intro n
    simp [List.replicate_succ]
  | succ a ih =>
    intro n
    have h1 : List.replicate (a + 1 + 1) false
        = false :: List.replicate (a + 1) false := rfl
    have h2 : List.replicate (a + 1) false
        = false :: List.replicate a false := rfl
    rw [h1, List.cons_append, List.set_cons_succ, ih n, h2, List.cons_append]

theorem dropCol_iterate : ∀ n, n ≤ ROWS →
    dropCol^[n] (List.replicate ROWS false)
      = List.replicate (ROWS - n) false ++ List.replicate n true := by
  intro n
  induction n with
  | zero =>
    intro _
    simp
  | succ n ih =>
    intro hn
    rw [Function.iterate_succ_apply', ih (by omega)]
    have ha : ROWS - n = (ROWS - (n + 1)) + 1 := by omega
    rw [ha]
    simp only [dropCol, findRowAux_mix (show (ROWS - (n + 1)) + 1 + n = ROWS
      by omega)]
    exact replicate_set (ROWS - (n + 1)) n

/-! ### The claims -/

/-- **C1** (code bug).  The spec and the docstring of `Player.has_win` demand
a win at a run of the required length (default 4), but line 163 of the source
compares `length >= 53`, unreachable on a 6-by-7 board: after a player placed
the bottom row of columns 0..3, the horizontal line through `(3, 5)` holds 4
consecutive cells of that player, yet `has_win` returns `False`; with the
intended threshold 4 the same state returns `True`. -/
theorem C1_threshold_bug :
    hasWin demoMoves (3, 5) = some false ∧
    hasWinWith 4 demoMoves (3, 5) = some true ∧
    1 + rayCount demoMoves (-1, 0) (3, 5) + rayCount demoMoves (1, 0) (3, 5)
      = 4 := by
  decide

/-- **C2** (confirmed).  In `has_win`, for a connected neighbour `nb` of the
queried coin `c`, the two directional walks follow only the exact offset
`nb - c` and its negation, and the computed length is exactly 1 (for the coin)
plus the number of consecutive recorded cells on that exact line through `c`
in both directions (`rayCount` consults nothing but key membership along the
line, so a cell connected only through an edge of a different axis is never
counted). -/
theorem C2_walk_exact_axis (m : Moves) (c nb : Coord) (l : List Coord)
    (hreach : Reachable m) (hl : lookupMoves m c = some l) (hnb : nb ∈ l) :
    lengthFor m (m.length + 1) c nb =
      some (1 + rayCount m (nb.1 - c.1, nb.2 - c.2) c
              + rayCount m (negD (nb.1 - c.1, nb.2 - c.2)) c) :=
  lengthFor_eq (reachable_inv hreach) hl hnb (by omega)

/-- The mapping of a player who placed `(0, 0)` and then `(1, 1)`. -/
def twoMoves : Moves := placeCoin (placeCoin [] (0, 0)) (1, 1)

/-- Witness for C2 at a concrete reachable mapping. -/
theorem C2_walk_exact_axis_witness :
    lookupMoves twoMoves ((1 : Int), (1 : Int)) = some [(0, 0)] ∧
    lengthFor twoMoves (twoMoves.length + 1) (1, 1) (0, 0) =
      some (1 + rayCount twoMoves (((0 : Int), (0 : Int)).1 - 1,
                ((0 : Int), (0 : Int)).2 - 1) (1, 1)
              + rayCount twoMoves (negD (((0 : Int), (0 : Int)).1 - 1,
                ((0 : Int), (0 : Int)).2 - 1)) (1, 1)) := by
  have hr : Reachable twoMoves :=
    Reachable.place (Reachable.place Reachable.nil (by decide)) (by decide)
  exact ⟨by decide,
    C2_walk_exact_axis twoMoves (1, 1) (0, 0) [(0, 0)] hr (by decide)
      (by decide)⟩

/-- **C3** (confirmed).  `Board.place_coin` drops into the scanned column's
lowest unplaced row (the greatest unplaced row index, every row below it
being placed), the drop preserves the gravity invariant of the column, and
`n` drops into an initially empty column fill exactly the bottom `n` rows. -/
theorem C3_gravity :
    (∀ (b : List (List Bool)) (pm : Moves) (pos : Coord) (col : Nat),
      findCol pos.1 = some col →
      ColContig (b.getD col []) →
      (∃ r, r < ROWS ∧ (b.getD col []).getD r true = false) →
      ∃ row, findRowAux (b.getD col []) ROWS = some row ∧
        row < ROWS ∧ (b.getD col []).getD row true = false ∧
        (∀ r2, row < r2 → r2 < ROWS → (b.getD col []).getD r2 true = true) ∧
        boardPlaceCoin b pm pos =
          some (((col : Int), (row : Int)),
            b.set col (dropCol (b.getD col [])),
            placeCoin pm ((col : Int), (row : Int)))) ∧
    (∀ l : List Bool, l.length = ROWS → ColContig l → ColContig (dropCol l)) ∧
    (∀ n, n ≤ ROWS →
      dropCol^[n] (List.replicate ROWS false)
        = List.replicate (ROWS - n) false ++ List.replicate n true) := by
  refine ⟨?_, fun l hlen hcont => dropCol_contig hlen hcont, dropCol_iterate⟩
  intro b pm pos col hcol hcontig hex
  obtain ⟨row, hrow⟩ := findRowAux_exists hex
  obtain ⟨h1, h2, h3⟩ := findRowAux_some hrow
  refine ⟨row, hrow, h1, h2, h3, ?_⟩
  simp only [boardPlaceCoin, hcol, hrow, dropCol]

/-- Witness for C3: a drop into the empty column 0 (pixel 102) lands in the
bottom row, and two drops fill the bottom two rows. -/
theorem C3_gravity_witness :
    (findCol 102 = some 0 ∧ ColContig (initCols.getD 0 []) ∧
      (∃ r, r < ROWS ∧ (initCols.getD 0 []).getD r true = false)) ∧
    (∃ row, findRowAux (initCols.getD 0 []) ROWS = some row ∧
      row < ROWS ∧ (initCols.getD 0 []).getD row true = false ∧
      (∀ r2, row < r2 → r2 < ROWS → (initCols.getD 0 []).getD r2 true = true) ∧
      boardPlaceCoin initCols [] (102, 0) =
        some ((((0 : Nat) : Int), (row : Int)),
          initCols.set 0 (dropCol (initCols.getD 0 [])),
          placeCoin [] (((0 : Nat) : Int), (row : Int)))) ∧
    dropCol^[2] (List.replicate ROWS false)
      = List.replicate (ROWS - 2) false ++ List.replicate 2 true :=
  ⟨⟨by decide, by decide, ⟨0, by decide, by decide⟩⟩,
    C3_gravity.1 initCols [] (102, 0) 0 (by decide) (by decide)
      ⟨0, by decide, by decide⟩,
    C3_gravity.2.2 2 (by decide)⟩

/-- **C4** (confirmed).  A click outside every column range, or on a full
column, makes `Board.place_coin` return nothing, and the event loop then
changes no state: board, both trackers, the turn index, the move counter and
the outcome are all unchanged. -/
theorem C4_rejected_move (s : GameState) (pos : Coord)
    (hout : s.outcome = Outcome.inProgress) :
    (boardPlaceCoin s.board (activeMoves s) pos = none ↔
      (findCol pos.1 = none ∨ ∃ col, findCol pos.1 = some col ∧
        ∀ r, r < ROWS → (s.board.getD col []).getD r true = true)) ∧
    (boardPlaceCoin s.board (activeMoves s) pos = none →
      stepGame s pos = some s) := by
  constructor
  · constructor
    · intro hnone
      cases hcol : findCol pos.1 with
      | none => exact Or.inl rfl
      | some col =>
        cases hrow : findRowAux (s.board.getD col []) ROWS with
        | none =>
          exact Or.inr ⟨col, rfl,
            fun r hr => findRowAux_none_iff.mp hrow r hr⟩
        | some row =>
          simp only [boardPlaceCoin, hcol, hrow] at hnone
          cases hnone
    · rintro (hnone | ⟨col, hcol, hfull⟩)
      · simp only [boardPlaceCoin, hnone]
      · simp only [boardPlaceCoin, hcol, findRowAux_none_iff.mpr hfull]
  · intro hnone
    simp only [stepGame, hout, hnone]

/-- Witness for C4: in the initial state a click at pixel 0 selects no
column, the placement fails, and the step leaves the state unchanged. -/
theorem C4_rejected_move_witness :
    initGame.outcome = Outcome.inProgress ∧
    boardPlaceCoin initGame.board (activeMoves initGame) (0, 0) = none ∧
    stepGame initGame (0, 0) = some initGame := by
  have h := C4_rejected_move initGame (0, 0) rfl
  have hb : boardPlaceCoin initGame.board (activeMoves initGame) (0, 0)
      = none := h.1.mpr (Or.inl (by decide))
  exact ⟨rfl, hb, h.2 hb⟩

/-- **C5** (confirmed).  When a placement succeeds, `has_win` is false for
the placed coin, and the accepted-move counter reaches `COLUMNS * ROWS`, the
event loop breaks with the tie outcome. -/
theorem C5_full_board_tie (s : GameState) (pos coin : Coord)
    (b2 : List (List Bool)) (pm2 : Moves)
    (hout : s.outcome = Outcome.inProgress)
    (hplace : boardPlaceCoin s.board (activeMoves s) pos = some (coin, b2, pm2))
    (hwin : hasWin pm2 coin = some false)
    (hcount : s.movesMade + 1 = COLUMNS * ROWS) :
    ∃ s2, stepGame s pos = some s2 ∧ s2.outcome = Outcome.tied ∧
      s2.movesMade = COLUMNS * ROWS ∧ s2.board = b2 := by
  refine ⟨GameState.mk b2 (if s.curPlayer then s.moves0 else pm2)
    (if s.curPlayer then pm2 else s.moves1) s.curPlayer (s.movesMade + 1)
    Outcome.tied, ?_, rfl, hcount, rfl⟩
  simp only [stepGame, hout, hplace, hwin, if_pos hcount]

/-- A board with a single free cell at column 0, row 0. -/
def tieBoard : List (List Bool) :=
  (false :: List.replicate 5 true) :: List.replicate 6 (List.replicate 6 true)

/-- A state one accepted move away from the full board. -/
def tieState : GameState :=
  { board := tieBoard, moves0 := [], moves1 := [], curPlayer := false,
    movesMade := 41, outcome := Outcome.inProgress }

/-- Witness for C5: the 42nd accepted move without a win ends in the tie. -/
theorem C5_full_board_tie_witness :
    tieState.outcome = Outcome.inProgress ∧
    boardPlaceCoin tieState.board (activeMoves tieState) (102, 0)
      = some ((0, 0), tieBoard.set 0 ((tieBoard.getD 0 []).set 0 true),
          placeCoin [] (0, 0)) ∧
    hasWin (placeCoin [] ((0 : Int), (0 : Int))) (0, 0) = some false ∧
    tieState.movesMade + 1 = COLUMNS * ROWS ∧
    ∃ s2, stepGame tieState (102, 0) = some s2 ∧
      s2.outcome = Outcome.tied ∧ s2.movesMade = COLUMNS * ROWS ∧
      s2.board = tieBoard.set 0 ((tieBoard.getD 0 []).set 0 true) :=
  ⟨rfl, by decide, by decide, by decide,
    C5_full_board_tie tieState (102, 0) (0, 0)
      (tieBoard.set 0 ((tieBoard.getD 0 []).set 0 true)) (placeCoin [] (0, 0))
      rfl (by decide) (by decide) (by decide)⟩

/-- **C6** (confirmed).  The terminal outcomes are absorbing: once the event
loop has broken out with a win or the tie, a subsequent click changes
nothing (the broken loop processes no further event). -/
theorem C6_terminal_absorbing (s : GameState) (pos : Coord)
    (hterm : (∃ p, s.outcome = Outcome.won p) ∨ s.outcome = Outcome.tied) :
    stepGame s pos = some s := by
  rcases hterm with ⟨p, hp⟩ | ht
  · simp only [stepGame, hp]
  · simp only [stepGame, ht]

/-- Witness for C6 at a concrete terminal state. -/
theorem C6_terminal_absorbing_witness :
    stepGame { initGame with outcome := Outcome.tied } (102, 0)
      = some { initGame with outcome := Outcome.tied } :=
  C6_terminal_absorbing { initGame with outcome := Outcome.tied } (102, 0)
    (Or.inr rfl)

/-- **C7** (confirmed).  `Player.place_coin` on a fresh cell `c` adds a
bidirectional edge between `c` and exactly the previously recorded cells at
Chebyshev distance at most 1 (the `near` test is that distance bound): `c`'s
new entry is exactly the list of those neighbours, each such neighbour's
entry gains exactly the coordinate `c` at its end, every other entry is
unchanged, and the key set grows by exactly `c`. -/
theorem C7_adjacency_edges (m : Moves) (c : Coord)
    (hfresh : lookupMoves m c = none) :
    (∀ a b : Coord, near a b = true ↔ cheb a b ≤ 1) ∧
    lookupMoves (placeCoin m c) c
      = some ((keysList m).filter (fun k => near c k)) ∧
    (∀ a l, lookupMoves m a = some l →
      lookupMoves (placeCoin m c) a
        = some (if near c a then l ++ [c] else l)) ∧
    keysList (placeCoin m c) = keysList m ++ [c] := by
  refine ⟨fun a b => near_iff_cheb, placeCoin_lookup_self, ?_,
    placeCoin_keys_fresh hfresh⟩
  intro a l hla
  have hac : a ≠ c := by
    intro h
    rw [h, hfresh] at hla
    cases hla
  rw [placeCoin_lookup_ne hac, hla]
  rfl

/-- Witness for C7: placing `(1, 0)` next to a recorded `(0, 0)`. -/
theorem C7_adjacency_edges_witness :
    lookupMoves (placeCoin [] ((0 : Int), (0 : Int))) (1, 0) = none ∧
    (near ((1 : Int), (0 : Int)) (0, 0) = true ↔
      cheb ((1 : Int), (0 : Int)) (0, 0) ≤ 1) ∧
    lookupMoves (placeCoin (placeCoin [] ((0 : Int), (0 : Int))) (1, 0)) (1, 0)
      = some [(0, 0)] ∧
    lookupMoves (placeCoin (placeCoin [] ((0 : Int), (0 : Int))) (1, 0)) (0, 0)
      = some [(1, 0)] ∧
    keysList (placeCoin (placeCoin [] ((0 : Int), (0 : Int))) (1, 0))
      = [(0, 0), (1, 0)] := by
  have h := C7_adjacency_edges (placeCoin [] ((0 : Int), (0 : Int))) (1, 0)
    (by decide)
  refine ⟨by decide, h.1 (1, 0) (0, 0), ?_, ?_, ?_⟩
  · rw [h.2.1]
    decide
  · rw [h.2.2.1 (0, 0) [] (by decide)]
    decide
  · rw [h.2.2.2]
    decide

/-- **C8** (corrected), counterexample to the claim as stated: the `__main__`
guard validates the coin radius rather than any run length (the run length is
the hard-coded comparison of line 163 and is not a construction input), so
construction can fail although rows, columns and the default run length 4
are all positive. -/
theorem C8_counterexample :
    checkValues (-1) 6 7 = Except.error radiusMsg ∧
    (0 : Int) < 6 ∧ (0 : Int) < 7 ∧ (0 : Int) < 4 := by
  constructor
  · rfl
  · refine ⟨by decide, by decide, by decide⟩

/-- **C8** (amended).  Construction succeeds exactly when coin radius, rows
and columns are all positive; otherwise it fails with an `InvalidValueError`
whose message contains the sentence naming each offending parameter. -/
theorem C8_validation (radius rows cols : Int) :
    (checkValues radius rows cols = Except.ok () ↔
      0 < radius ∧ 0 < rows ∧ 0 < cols) ∧
    (radius ≤ 0 → ∃ u v, checkValues radius rows cols
      = Except.error (u ++ radiusMsg ++ v)) ∧
    (rows ≤ 0 → ∃ u v, checkValues radius rows cols
      = Except.error (u ++ rowsMsg ++ v)) ∧
    (cols ≤ 0 → ∃ u v, checkValues radius rows cols
      = Except.error (u ++ colsMsg ++ v)) := by
  refine ⟨?_, ?_, ?_, ?_⟩
  · constructor
    · intro h
      by_contra hcon
      rw [checkValues, if_pos (by omega)] at h
      cases h
    · intro h
      rw [checkValues, if_neg (by omega)]
  · intro h
    refine ⟨"", (if rows ≤ 0 then rowsMsg else "")
      ++ (if cols ≤ 0 then colsMsg else ""), ?_⟩
    rw [checkValues, if_pos (by omega), invalidValueMessage, if_pos h]
    simp [String.append_assoc]
  · intro h
    refine ⟨(if radius ≤ 0 then radiusMsg else ""),
      (if cols ≤ 0 then colsMsg else ""), ?_⟩
    rw [checkValues, if_pos (by omega), invalidValueMessage, if_pos h]
  · intro h
    refine ⟨(if radius ≤ 0 then radiusMsg else "")
      ++ (if rows ≤ 0 then rowsMsg else ""), "", ?_⟩
    rw [checkValues, if_pos (by omega), invalidValueMessage, if_pos h]
    simp [String.append_assoc]

/-- Witness for C8: the source constants pass, a negative radius fails with
the radius sentence in the message. -/
theorem C8_validation_witness :
    checkValues 50 6 7 = Except.ok () ∧
    (∃ u v, checkValues (-1) 6 7 = Except.error (u ++ radiusMsg ++ v)) :=
  ⟨(C8_validation 50 6 7).1.mpr (by decide),
    (C8_validation (-1) 6 7).2.1 (by decide)⟩

/-- **C9** (confirmed).  On every reachable moves mapping, `has_win` for a
recorded coin terminates: the result is defined (not the fuel-exhaustion
`none`), and every fuel of at least `m.length + 1` computes the same result,
so both `while` loops finish within finitely many iterations, bounded by the
number of recorded cells. -/
theorem C9_termination (thr : Nat) (m : Moves) (c : Coord)
    (hreach : Reachable m) (hkey : isKey m c = true) :
    (hasWinWith thr m c).isSome = true ∧
    ∀ fuel, m.length + 1 ≤ fuel → hasWinFuel thr fuel m c
      = hasWinWith thr m c := by
  have hInv := reachable_inv hreach
  refine ⟨(hasWinFuel_stable thr hInv hkey
    (show m.length < m.length + 1 by omega)).2, ?_⟩
  intro fuel hf
  exact (hasWinFuel_stable thr hInv hkey (show m.length < fuel by omega)).1

/-- Witness for C9 on the four-in-a-row mapping. -/
theorem C9_termination_witness :
    isKey demoMoves ((3 : Int), (5 : Int)) = true ∧
    (hasWinWith 53 demoMoves (3, 5)).isSome = true ∧
    hasWinFuel 53 10 demoMoves (3, 5) = hasWinWith 53 demoMoves (3, 5) := by
  have hr : Reachable demoMoves :=
    Reachable.place (Reachable.place (Reachable.place
      (Reachable.place Reachable.nil (by decide)) (by decide)) (by decide))
      (by decide)
  have h := C9_termination 53 demoMoves (3, 5) hr (by decide)
  exact ⟨by decide, h.1, h.2 10 (by decide)⟩

/-- **C10** (confirmed).  `has_win` first looks the queried coin up in the
player's mapping: after `place_coin` recorded that coin (and through any
later placements) the lookup succeeds, and on a reachable mapping the whole
call returns a value; for a coin this player never recorded, the lookup
fails and `has_win` takes the error branch. -/
theorem C10_initial_lookup (thr : Nat) (m : Moves) (c c2 : Coord) :
    isKey (placeCoin m c) c = true ∧
    (isKey m c = true → isKey (placeCoin m c2) c = true) ∧
    (isKey m c = false → hasWinWith thr m c = none) ∧
    (Reachable m → isKey m c = true → (hasWinWith thr m c).isSome = true) := by
  refine ⟨isKey_placeCoin.mpr (Or.inr rfl),
    fun hk => isKey_placeCoin.mpr (Or.inl hk), ?_, ?_⟩
  · intro hk
    simp only [hasWinWith, hasWinFuel, isKey_eq_false_iff.mp hk]
  · intro hreach hk
    exact (hasWinFuel_stable thr (reachable_inv hreach) hk
      (show m.length < m.length + 1 by omega)).2

/-- Witness for C10: the lookup after placing `(0, 0)`, and the error branch
on the empty mapping. -/
theorem C10_initial_lookup_witness :
    isKey (placeCoin [] ((0 : Int), (0 : Int))) (0, 0) = true ∧
    hasWinWith 53 [] ((0 : Int), (0 : Int)) = none ∧
    (hasWinWith 53 (placeCoin [] ((0 : Int), (0 : Int))) (0, 0)).isSome
      = true := by
  have h1 := C10_initial_lookup 53 [] ((0 : Int), (0 : Int)) (0, 0)
  have h2 := C10_initial_lookup 53 (placeCoin [] ((0 : Int), (0 : Int)))
    (0, 0) (0, 0)
  exact ⟨h1.1, h1.2.2.1 (by decide),
    h2.2.2.2 (Reachable.place Reachable.nil rfl) (by decide)⟩

end Connect4
